import Mathlib

/-
Verification of the qFit residue-building core against its specification.

The embedding covers `_BaseStructure` (qfit/structure/base_structure.py):
`rmsd`, `_get_property` with the element-radius properties, `_simple_select`,
`extract`/`copy` with the dynamically bound attribute properties — and the
accept loop of `main` in qfit/qfit_residue.py (lines 146-171).

Conventions: machine floats become exact arithmetic (`ℚ`, with `Real.sqrt`
for `np.sqrt`); a raised Python exception becomes `none`; numpy arrays become
lists.  A structure's `(N, 3)` coordinate array is a `List Vec3`, so two
coordinate shapes are equal exactly when the lists have equal length.
-/

namespace QFit

/-- Cartesian coordinates of one atom: one row of a structure's `coor` array. -/
structure Vec3 where
  x : ℚ
  y : ℚ
  z : ℚ
deriving DecidableEq

/-- The attribute columns of a conformer that `rmsd` and the accept loop read:
per-atom residue names (`resn`), atom names (`name`) and coordinates (`coor`). -/
structure Conf where
  resn : List String
  name : List String
  coor : List Vec3
deriving DecidableEq

/-- Squared Euclidean distance between two coordinate rows. -/
def sqDist (a b : Vec3) : ℚ :=
  (a.x - b.x) * (a.x - b.x) + (a.y - b.y) * (a.y - b.y) + (a.z - b.z) * (a.z - b.z)

/-- `np.inner(diff, diff)` for `diff = (coor1 - coor2).ravel()`: summing the
squared entries of the raveled difference row by row. -/
def innerDiff : List Vec3 → List Vec3 → ℚ
  | a :: as, b :: bs => sqDist a b + innerDiff as bs
  | _, _ => 0

/-- The radicand `3 * np.inner(diff, diff) / diff.size` of `rmsd`;
`diff.size` is `3 * natoms`. -/
def rmsdValSq (c1 c2 : List Vec3) : ℚ :=
  3 * innerDiff c1 c2 / (3 * (c1.length : ℚ))

/-- Python `list.index`: position of the first occurrence, error (`none`,
modelling the raised `ValueError`) when the entry is absent. -/
def indexOfName (s : String) : List String → Option ℕ
  | [] => none
  | a :: rest => if a = s then some 0 else (indexOfName s rest).map (· + 1)

/-- The `coor3` array built inside `rmsd`: a copy of `coor2` whose CD1/CD2 rows
and CE1/CE2 rows are swapped (all four assignments read from the original
`coor2`).  `none` models the raised `ValueError` when an atom name is absent,
or the `IndexError` when a found index lies outside the coordinate array. -/
def ringFlip (names : List String) (coor : List Vec3) : Option (List Vec3) :=
  match indexOfName "CD1" names, indexOfName "CD2" names,
        indexOfName "CE1" names, indexOfName "CE2" names with
  | some i1, some i2, some j1, some j2 =>
    match coor.get? i1, coor.get? i2, coor.get? j1, coor.get? j2 with
    | some v1, some v2, some w1, some w2 =>
      some ((((coor.set i1 v2).set i2 v1).set j1 w2).set j2 w1)
    | _, _, _, _ => none
  | _, _, _, _ => none

/-- `_BaseStructure.rmsd` (base_structure.py lines 132-163), called as
`a.rmsd(b)`: after the shape check, the `"TYR" in self.resn` branch, then the
`"PHE" in self.resn` branch (both identical ring-flip computations over the
atom names of `b`), else the plain root-mean-square deviation.  `none` models
a raised exception. -/
noncomputable def rmsd (a b : Conf) : Option ℝ :=
  if a.coor.length = b.coor.length then
    if a.resn.contains "TYR" then
      match ringFlip b.name b.coor with
      | some coor3 =>
          some (min (Real.sqrt ((rmsdValSq a.coor b.coor : ℚ) : ℝ))
                    (Real.sqrt ((rmsdValSq a.coor coor3 : ℚ) : ℝ)))
      | none => none
    else if a.resn.contains "PHE" then
      match ringFlip b.name b.coor with
      | some coor3 =>
          some (min (Real.sqrt ((rmsdValSq a.coor b.coor : ℚ) : ℝ))
                    (Real.sqrt ((rmsdValSq a.coor coor3 : ℚ) : ℝ)))
      | none => none
    else some (Real.sqrt ((rmsdValSq a.coor b.coor : ℚ) : ℝ))
  else none

/-- Computable companion of `rmsd` carrying the radicand instead of the root;
`rmsd = Option.map Real.sqrt ∘ rmsdSq` up to casts (`rmsd_eq_map`). -/
def rmsdSq (a b : Conf) : Option ℚ :=
  if a.coor.length = b.coor.length then
    if a.resn.contains "TYR" then
      (ringFlip b.name b.coor).map
        (fun coor3 => min (rmsdValSq a.coor b.coor) (rmsdValSq a.coor coor3))
    else if a.resn.contains "PHE" then
      (ringFlip b.name b.coor).map
        (fun coor3 => min (rmsdValSq a.coor b.coor) (rmsdValSq a.coor coor3))
    else some (rmsdValSq a.coor b.coor)
  else none

/-- Default conformer used with `List.getD` when indexing accepted positions. -/
def dConf : Conf := ⟨[], [], []⟩

/-- The inner scan of the accept loop (`for conf in conformers[:n]`): `some
true` when some earlier conformer is within RMSD `0.2` (the loop `break`s at
the first hit), `some false` when every earlier conformer is at distance at
least `0.2`, `none` when an `rmsd` call raises before a hit is found. -/
noncomputable def skipScan (c : Conf) : List Conf → Option Bool
  | [] => some false
  | p :: ps =>
    match rmsd c p with
    | none => none
    | some r => if r < (0.2 : ℝ) then some true else skipScan c ps

/-- The accept loop of `main` (qfit_residue.py lines 148-167) from position
`n` on, over the remaining conformers: the returned list holds the indices of
the conformers that are written to a per-conformer file and merged into the
multiconformer structure.  `none` models an exception aborting the run. -/
noncomputable def acceptFromIdx (all : List Conf) : ℕ → List Conf → Option (List ℕ)
  | _, [] => some []
  | n, c :: rest =>
    match skipScan c (all.take n) with
    | none => none
    | some true => acceptFromIdx all (n + 1) rest
    | some false => (acceptFromIdx all (n + 1) rest).map (n :: ·)

/-- Indices of the conformers accepted (kept) by the orchestrator's loop. -/
noncomputable def acceptedIndices (cs : List Conf) : Option (List ℕ) :=
  acceptFromIdx cs 0 cs

/-- Computable companion of `skipScan`: `sqrt v < 0.2` iff `v < 1/25`. -/
def skipScanQ (c : Conf) : List Conf → Option Bool
  | [] => some false
  | p :: ps =>
    match rmsdSq c p with
    | none => none
    | some q => if q < (1 / 25 : ℚ) then some true else skipScanQ c ps

/-- Computable companion of `acceptFromIdx`. -/
def acceptFromIdxQ (all : List Conf) : ℕ → List Conf → Option (List ℕ)
  | _, [] => some []
  | n, c :: rest =>
    match skipScanQ c (all.take n) with
    | none => none
    | some true => acceptFromIdxQ all (n + 1) rest
    | some false => (acceptFromIdxQ all (n + 1) rest).map (n :: ·)

/-- Computable companion of `acceptedIndices`. -/
def acceptedIndicesQ (cs : List Conf) : Option (List ℕ) :=
  acceptFromIdxQ cs 0 cs

/-- `string.ascii_uppercase` as a list of characters. -/
def asciiUppercase : List Char :=
  ['A', 'B', 'C', 'D', 'E', 'F', 'G', 'H', 'I', 'J', 'K', 'L', 'M',
   'N', 'O', 'P', 'Q', 'R', 'S', 'T', 'U', 'V', 'W', 'X', 'Y', 'Z']

/-- The altloc label the loop assigns to the conformer at position `n`: the
variable `altloc` starts as `''` and is reassigned to `ascii_uppercase[n]`
each iteration exactly when `nconformers > 1` (the count of conformers the
run returned, not of survivors).  `none` models the `IndexError` past `Z`. -/
def altlocOf (cs : List Conf) (n : ℕ) : Option String :=
  if 1 < cs.length then (asciiUppercase.get? n).map (fun ch => String.mk [ch])
  else some ""

/-- Element parameters read by `_get_property`: covalent and van-der-Waals
radius. -/
structure ElemData where
  covrad : ℚ
  vdwrad : ℚ
deriving DecidableEq

/-- Carbon's parameters, the substitute for unknown elements. -/
def carbonElem : ElemData := ⟨77 / 100, 17 / 10⟩

/-- Modelled from the spec: the table `ELEMENTS` lives in
qfit/structure/elements.py, which is not part of the provided sources.  Per
the spec it is a static map from capitalized element symbols to per-element
parameters (covalent radius, van-der-Waals radius), with Carbon (`"C"`)
present as the fallback entry.  A representative finite table. -/
def ELEMENTS : List (String × ElemData) :=
  [("H", ⟨32 / 100, 12 / 10⟩), ("C", carbonElem), ("N", ⟨70 / 100, 155 / 100⟩),
   ("O", ⟨66 / 100, 152 / 100⟩), ("S", ⟨104 / 100, 18 / 10⟩), ("Fe", ⟨116 / 100, 2⟩)]

/-- `ELEMENTS[s]` as a partial lookup (`none` models the `KeyError`). -/
def lookupElem (s : String) : Option ElemData :=
  (ELEMENTS.find? (fun p => p.1 == s)).map Prod.snd

/-- Python `str.capitalize`: first character upper-cased, the rest lower. -/
def capitalize (s : String) : String :=
  match s.data with
  | [] => s
  | c :: cs => String.mk (c.toUpper :: cs.map Char.toLower)

/-- The `try`/`except KeyError` body of `_get_property`: the element's own
parameter when `ELEMENTS[e.capitalize()]` exists, Carbon's otherwise. -/
def elemValue (pt : ElemData → ℚ) (e : String) : ℚ :=
  match lookupElem (capitalize e) with
  | some d => pt d
  | none => pt carbonElem

/-- `_BaseStructure._get_property` (base_structure.py lines 90-101): one value
per distinct element symbol (`np.unique`), scattered back over the atoms via
the inverse index (`return_inverse`). -/
def _get_property (pt : ElemData → ℚ) (es : List String) : List ℚ :=
  let elements := es.dedup
  let values := elements.map (elemValue pt)
  es.map (fun e => values.getD (elements.indexOf e) 0)

/-- The `covalent_radius` property (lines 103-105). -/
def covalent_radius (es : List String) : List ℚ :=
  _get_property ElemData.covrad es

/-- The `vdw_radius` property (lines 107-109). -/
def vdw_radius (es : List String) : List ℚ :=
  _get_property ElemData.vdwrad es

/-- The keys of `_COMPARISON_DICT` (base_structure.py line 45). -/
inductive CompOp
  | eq | ne | gt | ge | le | lt
deriving DecidableEq

/-- The values of `_COMPARISON_DICT`: note that the key `!=` maps to
`operator.eq` — the negation happens afterwards in `_simple_select`. -/
def compFn {α : Type} [LinearOrder α] : CompOp → α → α → Bool
  | .eq, a, b => decide (a = b)
  | .ne, a, b => decide (a = b)
  | .gt, a, b => decide (b < a)
  | .ge, a, b => decide (b ≤ a)
  | .le, a, b => decide (a ≤ b)
  | .lt, a, b => decide (a < b)

/-- `_BaseStructure._simple_select` (base_structure.py lines 173-188): OR the
per-value comparison masks together, negate the mask for `!=`, then either
`np.flatnonzero(mask)` (root structure) or `self._selection[mask]` (view).
`data` is the attribute column as the structure sees it. -/
def _simple_select {α : Type} [LinearOrder α] (data : List α)
    (selection : Option (List ℕ)) (values : List α) (op : CompOp) : List ℕ :=
  let mask0 := data.map (fun d => values.any (fun v => compFn op d v))
  let mask := if op = .ne then mask0.map (fun b => not b) else mask0
  match selection with
  | none => (List.range mask.length).filter (fun i => mask.getD i false)
  | some sel => (List.zip sel mask).filterMap (fun p => if p.2 then some p.1 else none)

/-- The membership semantics the spec ascribes to each comparison operator:
`==` keeps atoms whose attribute equals some listed value, `!=` their
complement, and the orders keep atoms comparing against some listed value. -/
def opPred {α : Type} [LinearOrder α] : CompOp → α → List α → Prop
  | .eq, d, values => ∃ v ∈ values, d = v
  | .ne, d, values => ∀ v ∈ values, d ≠ v
  | .gt, d, values => ∃ v ∈ values, v < d
  | .ge, d, values => ∃ v ∈ values, v ≤ d
  | .le, d, values => ∃ v ∈ values, d ≤ v
  | .lt, d, values => ∃ v ∈ values, d < v

/-- The mask entry `_simple_select` computes for one atom's attribute value:
the OR over the listed values of the comparison, negated afterwards when the
operator is `!=`. -/
def maskEntry {α : Type} [LinearOrder α] (op : CompOp) (values : List α) (d : α) : Bool :=
  if op = CompOp.ne then not (values.any (fun v => compFn op d v))
  else values.any (fun v => compFn op d v)

/-- Heap of backing attribute arrays.  The dynamically bound attribute
properties of `_BaseStructure` read and write `self._<attr>` through
`self._selection`; aliasing between a parent and its extracted views is made
explicit by letting structures hold a reference into this store.  One
attribute column suffices to state the sharing behaviour. -/
abbrev Store := List (List ℚ)

/-- A structure as the attribute properties see it: a reference to its backing
array and the optional selection (`None` for a root structure). -/
structure SView where
  dataRef : ℕ
  selection : Option (List ℕ)

/-- The property getter (base_structure.py lines 76-80): the whole array
(a copy, value-equal) without a selection, the selected entries otherwise. -/
def getAttr (st : Store) (s : SView) : List ℚ :=
  match s.selection with
  | none => st.getD s.dataRef []
  | some sel => sel.map (fun i => (st.getD s.dataRef []).getD i 0)

/-- The property setter (lines 82-86) for a scalar value: assign into the
backing array at the selection (`arr[self._selection] = value`), or over the
whole array (`arr[:] = value`) without a selection. -/
def setAttr (st : Store) (s : SView) (v : ℚ) : Store :=
  let arr := st.getD s.dataRef []
  let newArr :=
    match s.selection with
    | none => arr.map (fun _ => v)
    | some sel =>
        (List.range arr.length).map (fun i => if sel.contains i then v else arr.getD i 0)
  st.set s.dataRef newArr

/-- `_BaseStructure.extract` with an index selection (lines 120-125): a new
structure over the *same* `self.data`, with the given selection and the
original as parent. -/
def extract (s : SView) (sel : List ℕ) : SView :=
  ⟨s.dataRef, some sel⟩

/-- `_BaseStructure.copy` (lines 111-115): materialize the current selection
into fresh arrays (`getattr(self, attr).copy()`), no parent, no selection.
Returns the grown store and the new root structure. -/
def copyStruct (st : Store) (s : SView) : Store × SView :=
  (st ++ [getAttr st s], ⟨st.length, none⟩)

/-- One-atom alanine-like conformer at `(q, 0, 0)`; never hits the aromatic
branch of `rmsd`. -/
def mkConf1 (q : ℚ) : Conf :=
  ⟨["ALA"], ["CA"], [⟨q, 0, 0⟩]⟩

/-- Conformers returned in the order index 0 at x = 0, index 1 at x = 0.15,
index 2 at x = 0.3: index 1 is within 0.2 of index 0 (skipped), index 2 is
within 0.2 of the *skipped* index 1 but at distance 0.3 from the accepted
index 0. -/
def exChain : List Conf := [mkConf1 0, mkConf1 (3 / 20), mkConf1 (3 / 10)]

/-- Two conformers at distance 0.3: both are accepted. -/
def exPair : List Conf := [mkConf1 0, mkConf1 (3 / 10)]

/-- Three coincident conformers: only index 0 survives the accept loop. -/
def exDup : List Conf := [mkConf1 0, mkConf1 0, mkConf1 0]

/-- A tyrosine-labelled conformer without the aromatic ring atoms: `rmsd`
against it raises instead of returning. -/
def badTyr : Conf :=
  ⟨["TYR"], ["N"], [⟨0, 0, 0⟩]⟩

/-- Aromatic conformer: four ring atoms on a line. -/
def tyrA : Conf :=
  ⟨["TYR", "TYR", "TYR", "TYR"], ["CD1", "CD2", "CE1", "CE2"],
   [⟨0, 0, 0⟩, ⟨1, 0, 0⟩, ⟨2, 0, 0⟩, ⟨3, 0, 0⟩]⟩

/-- Second aromatic conformer, shifted by one along y. -/
def tyrB : Conf :=
  ⟨["TYR", "TYR", "TYR", "TYR"], ["CD1", "CD2", "CE1", "CE2"],
   [⟨0, 1, 0⟩, ⟨1, 1, 0⟩, ⟨2, 1, 0⟩, ⟨3, 1, 0⟩]⟩

/-- `tyrB`'s coordinates under the ring flip: CD1 and CD2 rows swapped, CE1
and CE2 rows swapped. -/
def tyrBFlip : List Vec3 :=
  [⟨1, 1, 0⟩, ⟨0, 1, 0⟩, ⟨3, 1, 0⟩, ⟨2, 1, 0⟩]

/-- Aromatic partner with the ring-atom names missing. -/
def tyrBad : Conf :=
  ⟨["TYR", "TYR", "TYR", "TYR"], ["CA", "CB", "CG", "CD"],
   [⟨0, 1, 0⟩, ⟨1, 1, 0⟩, ⟨2, 1, 0⟩, ⟨3, 1, 0⟩]⟩

/-- Two-atom conformer, shape-incompatible with the one-atom examples. -/
def twoAtoms : Conf :=
  ⟨["ALA", "ALA"], ["CA", "CB"], [⟨0, 0, 0⟩, ⟨1, 0, 0⟩]⟩

lemma sqrt_rat_min (p q : ℚ) :
    Real.sqrt ((min p q : ℚ) : ℝ) = min (Real.sqrt (p : ℝ)) (Real.sqrt (q : ℝ)) := by
  rw [Rat.cast_min]
  exact Monotone.map_min (fun a b h => Real.sqrt_le_sqrt h)

lemma rmsd_eq_map (a b : Conf) :
    rmsd a b = (rmsdSq a b).map (fun q => Real.sqrt ((q : ℚ) : ℝ)) := by
  unfold rmsd rmsdSq
  split
  · split
    · cases hf : ringFlip b.name b.coor with
      | none => rfl
      | some coor3 =>
        simp only [Option.map_some']
        rw [sqrt_rat_min]
    · split
      · cases hf : ringFlip b.name b.coor with
        | none => rfl
        | some coor3 =>
          simp only [Option.map_some']
          rw [sqrt_rat_min]
      · rfl
  · rfl

lemma sqrt_lt_threshold_iff (q : ℚ) :
    Real.sqrt ((q : ℚ) : ℝ) < (0.2 : ℝ) ↔ q < (1 / 25 : ℚ) := by
  rw [Real.sqrt_lt' (by norm_num : (0 : ℝ) < 0.2),
    show ((0.2 : ℝ)) ^ 2 = ((1 / 25 : ℚ) : ℝ) by norm_num]
  exact Rat.cast_lt

lemma skipScan_eq (c : Conf) : ∀ ps : List Conf, skipScan c ps = skipScanQ c ps := by
  intro ps
  induction ps with
  | nil => rfl
  | cons p ps ih =>
    rw [skipScan, skipScanQ, rmsd_eq_map]
    cases hq : rmsdSq c p with
    | none => rfl
    | some q =>
      simp only [Option.map_some', sqrt_lt_threshold_iff, ih]

lemma acceptFromIdx_eq (all : List Conf) :
    ∀ (rest : List Conf) (n : ℕ), acceptFromIdx all n rest = acceptFromIdxQ all n rest := by
  intro rest
  induction rest with
  | nil => intro n; rfl
  | cons c rest ih =>
    intro n
    rw [acceptFromIdx, acceptFromIdxQ, skipScan_eq]
    cases skipScanQ c (all.take n) with
    | none => rfl
    | some b => cases b <;> simp [ih]

lemma acceptedIndices_eq (cs : List Conf) : acceptedIndices cs = acceptedIndicesQ cs :=
  acceptFromIdx_eq cs cs 0

lemma skipScan_cons_none (c p : Conf) (ps : List Conf) (h : rmsd c p = none) :
    skipScan c (p :: ps) = none := by
  rw [skipScan, h]

lemma skipScan_cons_some (c p : Conf) (ps : List Conf) (r : ℝ) (h : rmsd c p = some r) :
    skipScan c (p :: ps) = if r < (0.2 : ℝ) then some true else skipScan c ps := by
  rw [skipScan, h]

lemma acceptFromIdx_cons_none (all : List Conf) (n : ℕ) (c : Conf) (rest : List Conf)
    (h : skipScan c (all.take n) = none) :
    acceptFromIdx all n (c :: rest) = none := by
  rw [acceptFromIdx, h]

lemma acceptFromIdx_cons_true (all : List Conf) (n : ℕ) (c : Conf) (rest : List Conf)
    (h : skipScan c (all.take n) = some true) :
    acceptFromIdx all n (c :: rest) = acceptFromIdx all (n + 1) rest := by
  rw [acceptFromIdx, h]

lemma acceptFromIdx_cons_false (all : List Conf) (n : ℕ) (c : Conf) (rest : List Conf)
    (h : skipScan c (all.take n) = some false) :
    acceptFromIdx all n (c :: rest) = (acceptFromIdx all (n + 1) rest).map (n :: ·) := by
  rw [acceptFromIdx, h]

lemma skipScan_false_iff (c : Conf) :
    ∀ ps : List Conf, skipScan c ps = some false ↔
      ∀ p ∈ ps, ∃ r, rmsd c p = some r ∧ (0.2 : ℝ) ≤ r := by
  intro ps
  induction ps with
  | nil => simp [skipScan]
  | cons p ps ih =>
    cases hr : rmsd c p with
    | none =>
      rw [skipScan_cons_none c p ps hr]
      constructor
      · intro h; exact Option.noConfusion h
      · intro h
        rcases h p (List.mem_cons_self p ps) with ⟨r, hr2, _⟩
        rw [hr] at hr2
        exact Option.noConfusion hr2
    | some r =>
      rw [skipScan_cons_some c p ps r hr]
      by_cases hlt : r < (0.2 : ℝ)
      · rw [if_pos hlt]
        constructor
        · intro h
          exact absurd (Option.some.inj h) (by simp)
        · intro h
          rcases h p (List.mem_cons_self p ps) with ⟨s, hs, hs2⟩
          rw [hr] at hs
          cases hs
          exact absurd hlt (not_lt.mpr hs2)
      · rw [if_neg hlt, ih]
        constructor
        · intro h q hq
          rcases List.mem_cons.mp hq with h1 | h2
          · subst h1; exact ⟨r, hr, not_lt.mp hlt⟩
          · exact h q h2
        · intro h q hq
          exact h q (List.mem_cons.mpr (Or.inr hq))

lemma skipScan_true_exists (c : Conf) :
    ∀ ps : List Conf, skipScan c ps = some true →
      ∃ p ∈ ps, ∃ r, rmsd c p = some r ∧ r < (0.2 : ℝ) := by
  intro ps
  induction ps with
  | nil => intro h; rw [skipScan] at h; exact absurd (Option.some.inj h) (by simp)
  | cons p ps ih =>
    cases hr : rmsd c p with
    | none =>
      rw [skipScan_cons_none c p ps hr]
      intro h; exact Option.noConfusion h
    | some r =>
      rw [skipScan_cons_some c p ps r hr]
      by_cases hlt : r < (0.2 : ℝ)
      · intro _
        exact ⟨p, List.mem_cons_self p ps, r, hr, hlt⟩
      · rw [if_neg hlt]
        intro h
        rcases ih h with ⟨q, hq, hrest⟩
        exact ⟨q, List.mem_cons_of_mem p hq, hrest⟩

lemma acceptFromIdx_spec (all : List Conf) :
    ∀ (rest : List Conf) (n : ℕ) (l : List ℕ),
      rest = all.drop n → acceptFromIdx all n rest = some l →
      ((∀ m, n ≤ m → m < all.length →
          skipScan (all.getD m dConf) (all.take m) ≠ none) ∧
        (∀ m, m ∈ l ↔ n ≤ m ∧ m < all.length ∧
          skipScan (all.getD m dConf) (all.take m) = some false)) := by
  intro rest
  induction rest with
  | nil =>
    intro n l hdrop hacc
    have hlen : all.length ≤ n := List.drop_eq_nil_iff.mp hdrop.symm
    simp only [acceptFromIdx, Option.some.injEq] at hacc
    subst hacc
    constructor
    · intro m hnm hm _
      exact absurd (hlen.trans hnm) (not_le.mpr hm)
    · intro m
      constructor
      · intro h; exact absurd h (List.not_mem_nil m)
      · rintro ⟨h1, h2, _⟩
        exact absurd (hlen.trans h1) (not_le.mpr h2)
  | cons c rest ih =>
    intro n l hdrop hacc
    have hn : n < all.length := by
      by_contra hcon
      have h0 : all.drop n = [] := List.drop_eq_nil_iff.mpr (not_lt.mp hcon)
      rw [← hdrop] at h0
      exact List.noConfusion h0
    have hsplit := hdrop.trans (List.drop_eq_getElem_cons hn)
    injection hsplit with hc hrest
    have hgetd : all.getD n dConf = c := by
      rw [List.getD_eq_getElem?_getD, List.getElem?_eq_getElem hn, ← hc]
      rfl
    cases hs : skipScan c (all.take n) with
    | none =>
      rw [acceptFromIdx_cons_none all n c rest hs] at hacc
      exact Option.noConfusion hacc
    | some b =>
      cases b with
      | true =>
        rw [acceptFromIdx_cons_true all n c rest hs] at hacc
        rcases ih (n + 1) l hrest hacc with ⟨ihnone, ihmem⟩
        constructor
        · intro m hnm hm
          rcases eq_or_lt_of_le hnm with heq | hlt
          · rw [← heq, hgetd, hs]
            exact fun hx => Option.noConfusion hx
          · exact ihnone m hlt hm
        · intro m
          rw [ihmem m]
          constructor
          · rintro ⟨h1, h2, h3⟩
            exact ⟨Nat.le_of_succ_le h1, h2, h3⟩
          · rintro ⟨h1, h2, h3⟩
            rcases eq_or_lt_of_le h1 with heq | hlt
            · exfalso
              rw [← heq, hgetd] at h3
              exact absurd (Option.some.inj (hs.symm.trans h3)) (by simp)
            · exact ⟨hlt, h2, h3⟩
      | false =>
        rw [acceptFromIdx_cons_false all n c rest hs] at hacc
        cases hi : acceptFromIdx all (n + 1) rest with
        | none => rw [hi] at hacc; exact Option.noConfusion hacc
        | some l2 =>
          rw [hi] at hacc
          simp only [Option.map_some', Option.some.injEq] at hacc
          subst hacc
          rcases ih (n + 1) l2 hrest hi with ⟨ihnone, ihmem⟩
          constructor
          · intro m hnm hm
            rcases eq_or_lt_of_le hnm with heq | hlt
            · rw [← heq, hgetd, hs]
              exact fun hx => Option.noConfusion hx
            · exact ihnone m hlt hm
          · intro m
            simp only [List.mem_cons, ihmem m]
            constructor
            · rintro (heq | ⟨h1, h2, h3⟩)
              · subst heq
                exact ⟨le_refl m, hn, by rw [hgetd]; exact hs⟩
              · exact ⟨Nat.le_of_succ_le h1, h2, h3⟩
            · rintro ⟨h1, h2, h3⟩
              rcases eq_or_lt_of_le h1 with heq | hlt
              · exact Or.inl heq.symm
              · exact Or.inr ⟨hlt, h2, h3⟩

lemma acceptFromIdx_sorted (all : List Conf) :
    ∀ (rest : List Conf) (n : ℕ) (l : List ℕ),
      acceptFromIdx all n rest = some l →
      (∀ m ∈ l, n ≤ m) ∧ List.Pairwise (fun a b => a < b) l := by
  intro rest
  induction rest with
  | nil =>
    intro n l hacc
    simp only [acceptFromIdx, Option.some.injEq] at hacc
    subst hacc
    exact ⟨fun m hm => absurd hm (List.not_mem_nil m), List.Pairwise.nil⟩
  | cons c rest ih =>
    intro n l hacc
    cases hs : skipScan c (all.take n) with
    | none =>
      rw [acceptFromIdx_cons_none all n c rest hs] at hacc
      exact Option.noConfusion hacc
    | some b =>
      cases b with
      | true =>
        rw [acceptFromIdx_cons_true all n c rest hs] at hacc
        rcases ih (n + 1) l hacc with ⟨hge, hpw⟩
        exact ⟨fun m hm => Nat.le_of_succ_le (hge m hm), hpw⟩
      | false =>
        rw [acceptFromIdx_cons_false all n c rest hs] at hacc
        cases hi : acceptFromIdx all (n + 1) rest with
        | none => rw [hi] at hacc; exact Option.noConfusion hacc
        | some l2 =>
          rw [hi] at hacc
          simp only [Option.map_some', Option.some.injEq] at hacc
          subst hacc
          rcases ih (n + 1) l2 hi with ⟨hge, hpw⟩
          constructor
          · intro m hm
            rcases List.mem_cons.mp hm with heq | hmem
            · exact heq ▸ le_refl n
            · exact Nat.le_of_succ_le (hge m hmem)
          · exact List.Pairwise.cons (fun m hm => Nat.lt_of_succ_le (hge m hm)) hpw

lemma acceptedIndices_mem (cs : List Conf) (l : List ℕ)
    (h : acceptedIndices cs = some l) (m : ℕ) :
    m ∈ l ↔ m < cs.length ∧ skipScan (cs.getD m dConf) (cs.take m) = some false := by
  have hspec := (acceptFromIdx_spec cs cs 0 l (by simp) h).2 m
  rw [hspec]
  simp

lemma acceptedIndices_nonone (cs : List Conf) (l : List ℕ)
    (h : acceptedIndices cs = some l) (m : ℕ) (hm : m < cs.length) :
    skipScan (cs.getD m dConf) (cs.take m) ≠ none :=
  (acceptFromIdx_spec cs cs 0 l (by simp) h).1 m (Nat.zero_le m) hm

lemma sqDist_nonneg (a b : Vec3) : 0 ≤ sqDist a b :=
  add_nonneg (add_nonneg (mul_self_nonneg _) (mul_self_nonneg _)) (mul_self_nonneg _)

lemma sqDist_self (a : Vec3) : sqDist a a = 0 := by
  unfold sqDist
  ring

lemma innerDiff_nonneg : ∀ c1 c2 : List Vec3, 0 ≤ innerDiff c1 c2 := by
  intro c1
  induction c1 with
  | nil => intro c2; cases c2 <;> simp [innerDiff]
  | cons a as ih =>
    intro c2
    cases c2 with
    | nil => simp [innerDiff]
    | cons b bs =>
      rw [innerDiff]
      exact add_nonneg (sqDist_nonneg a b) (ih bs)

lemma innerDiff_self : ∀ c : List Vec3, innerDiff c c = 0 := by
  intro c
  induction c with
  | nil => rfl
  | cons a as ih =>
    rw [innerDiff, sqDist_self, ih]
    norm_num

lemma rmsdValSq_nonneg (c1 c2 : List Vec3) : 0 ≤ rmsdValSq c1 c2 := by
  unfold rmsdValSq
  apply div_nonneg
  · have h := innerDiff_nonneg c1 c2
    linarith
  · positivity

lemma rmsdValSq_self (c : List Vec3) : rmsdValSq c c = 0 := by
  unfold rmsdValSq
  rw [innerDiff_self]
  simp

lemma rmsdValSq_eq_div (c1 c2 : List Vec3) :
    rmsdValSq c1 c2 = innerDiff c1 c2 / (c1.length : ℚ) :=
  mul_div_mul_left _ _ (by norm_num)

lemma rmsdSq_self_eq_zero (a : Conf) : ∀ q : ℚ, rmsdSq a a = some q → q = 0 := by
  intro q h
  unfold rmsdSq at h
  rw [if_pos rfl] at h
  by_cases h2 : a.resn.contains "TYR"
  · rw [if_pos h2] at h
    cases hf : ringFlip a.name a.coor with
    | none => rw [hf] at h; exact Option.noConfusion h
    | some c3 =>
      rw [hf] at h
      simp only [Option.map_some', Option.some.injEq] at h
      rw [← h, rmsdValSq_self]
      exact min_eq_left (rmsdValSq_nonneg _ _)
  · rw [if_neg h2] at h
    by_cases h3 : a.resn.contains "PHE"
    · rw [if_pos h3] at h
      cases hf : ringFlip a.name a.coor with
      | none => rw [hf] at h; exact Option.noConfusion h
      | some c3 =>
        rw [hf] at h
        simp only [Option.map_some', Option.some.injEq] at h
        rw [← h, rmsdValSq_self]
        exact min_eq_left (rmsdValSq_nonneg _ _)
    · rw [if_neg h3] at h
      simp only [Option.some.injEq] at h
      rw [← h, rmsdValSq_self]

lemma rmsdSq_self_some (a : Conf)
    (h : (a.resn.contains "TYR" = false ∧ a.resn.contains "PHE" = false) ∨
      (ringFlip a.name a.coor).isSome = true) :
    rmsdSq a a = some 0 := by
  unfold rmsdSq
  rw [if_pos rfl]
  by_cases h2 : a.resn.contains "TYR"
  · rw [if_pos h2]
    rcases h with ⟨hT, _⟩ | hsome
    · rw [h2] at hT
      exact absurd hT (by simp)
    · cases hf : ringFlip a.name a.coor with
      | none =>
        rw [hf] at hsome
        exact absurd hsome (by simp)
      | some c3 =>
        simp only [Option.map_some', Option.some.injEq]
        rw [rmsdValSq_self]
        exact min_eq_left (rmsdValSq_nonneg _ _)
  · rw [if_neg h2]
    by_cases h3 : a.resn.contains "PHE"
    · rw [if_pos h3]
      rcases h with ⟨_, hP⟩ | hsome
      · rw [h3] at hP
        exact absurd hP (by simp)
      · cases hf : ringFlip a.name a.coor with
        | none =>
          rw [hf] at hsome
          exact absurd hsome (by simp)
        | some c3 =>
          simp only [Option.map_some', Option.some.injEq]
          rw [rmsdValSq_self]
          exact min_eq_left (rmsdValSq_nonneg _ _)
    · rw [if_neg h3, rmsdValSq_self]

lemma not_mem_of_contains_false {s : String} {l : List String}
    (h : l.contains s = false) : s ∉ l := by
  simpa [List.contains] using h

lemma indexOfName_eq_none (s : String) :
    ∀ names : List String, s ∉ names → indexOfName s names = none := by
  intro names
  induction names with
  | nil => intro _; rfl
  | cons a rest ih =>
    intro h
    have hne : ¬ a = s := fun heq => h (by rw [← heq]; exact List.mem_cons_self a rest)
    rw [indexOfName, if_neg hne, ih (fun hm => h (List.mem_cons_of_mem a hm))]
    rfl

lemma ringFlip_none_of_missing (names : List String) (coor : List Vec3)
    (h : names.contains "CD1" = false ∨ names.contains "CD2" = false ∨
         names.contains "CE1" = false ∨ names.contains "CE2" = false) :
    ringFlip names coor = none := by
  unfold ringFlip
  rcases h with h | h | h | h
  · rw [indexOfName_eq_none _ _ (not_mem_of_contains_false h)]
  · cases h1 : indexOfName "CD1" names <;>
      rw [indexOfName_eq_none _ _ (not_mem_of_contains_false h)]
  · cases h1 : indexOfName "CD1" names <;>
      cases h2 : indexOfName "CD2" names <;>
        rw [indexOfName_eq_none _ _ (not_mem_of_contains_false h)]
  · cases h1 : indexOfName "CD1" names <;>
      cases h2 : indexOfName "CD2" names <;>
        cases h3 : indexOfName "CE1" names <;>
          rw [indexOfName_eq_none _ _ (not_mem_of_contains_false h)]

lemma innerDiff_eq_sum : ∀ c1 c2 : List Vec3,
    innerDiff c1 c2 = ((List.zip c1 c2).map (fun p => sqDist p.1 p.2)).sum := by
  intro c1
  induction c1 with
  | nil => intro c2; cases c2 <;> simp [innerDiff]
  | cons a as ih =>
    intro c2
    cases c2 with
    | nil => simp [innerDiff]
    | cons b bs => simp [innerDiff, ih bs]

lemma getD_take_eq (l : List Conf) (m j : ℕ) (hj : j < m) :
    (l.take m).getD j dConf = l.getD j dConf := by
  rw [List.getD_eq_getElem?_getD, List.getD_eq_getElem?_getD, List.getElem?_take_of_lt hj]

lemma getD_mem (l : List Conf) (j : ℕ) (hj : j < l.length) : l.getD j dConf ∈ l := by
  rw [List.getD_eq_getElem?_getD, List.getElem?_eq_getElem hj]
  exact List.getElem_mem hj

lemma rmsdSq_mkConf1 (p q : ℚ) :
    rmsdSq (mkConf1 p) (mkConf1 q) = some ((p - q) * (p - q)) := by
  norm_num [rmsdSq, rmsdValSq, innerDiff, sqDist, mkConf1,
    (show ("TYR" : String) ≠ "ALA" by decide), (show ("PHE" : String) ≠ "ALA" by decide)]

lemma exPair_accepted : acceptedIndices exPair = some [0, 1] := by
  rw [acceptedIndices_eq]
  norm_num [acceptedIndicesQ, acceptFromIdxQ, skipScanQ, exPair, rmsdSq_mkConf1]

lemma exChain_accepted : acceptedIndices exChain = some [0] := by
  rw [acceptedIndices_eq]
  norm_num [acceptedIndicesQ, acceptFromIdxQ, skipScanQ, exChain, rmsdSq_mkConf1]

lemma exDup_accepted : acceptedIndices exDup = some [0] := by
  rw [acceptedIndices_eq]
  norm_num [acceptedIndicesQ, acceptFromIdxQ, skipScanQ, exDup, rmsdSq_mkConf1]

/-- Claim C3 (amended): under a run that completes, a conformer is accepted
exactly when its RMSD to *every earlier conformer in the returned list* —
accepted or skipped — is defined and at least 0.2; equivalently it is skipped
exactly when some earlier conformer (not necessarily an accepted one) lies
within 0.2.  The claim as stated compares only against previously *accepted*
conformers; the counterexample shows the difference. -/
theorem accept_loop_skip_char (cs : List Conf) (l : List ℕ)
    (h : acceptedIndices cs = some l) (m : ℕ) :
    m ∈ l ↔ m < cs.length ∧ ∀ j, j < m →
      ∃ r, rmsd (cs.getD m dConf) (cs.getD j dConf) = some r ∧ (0.2 : ℝ) ≤ r := by
  rw [acceptedIndices_mem cs l h m]
  constructor
  · rintro ⟨hm, hscan⟩
    refine ⟨hm, ?_⟩
    intro j hj
    have hall := (skipScan_false_iff _ _).mp hscan
    have hjt : j < (cs.take m).length := by
      rw [List.length_take]
      exact lt_min hj (hj.trans hm)
    have hmem := getD_mem (cs.take m) j hjt
    rw [getD_take_eq cs m j hj] at hmem
    exact hall _ hmem
  · rintro ⟨hm, hge⟩
    refine ⟨hm, ?_⟩
    cases hb : skipScan (cs.getD m dConf) (cs.take m) with
    | none => exact absurd hb (acceptedIndices_nonone cs l h m hm)
    | some b =>
      cases b with
      | false => rfl
      | true =>
        exfalso
        rcases skipScan_true_exists _ _ hb with ⟨p, hp, r, hr, hrlt⟩
        rcases List.mem_iff_getElem.mp hp with ⟨j, hjlen, hjp⟩
        have hjm : j < m := lt_of_lt_of_le hjlen
          (by rw [List.length_take]; exact min_le_left _ _)
        have hpd : cs.getD j dConf = p := by
          rw [← getD_take_eq cs m j hjm, List.getD_eq_getElem?_getD,
            List.getElem?_eq_getElem hjlen]
          exact hjp
        rcases hge j hjm with ⟨s, hs, hsge⟩
        rw [hpd, hr] at hs
        cases hs
        exact absurd hrlt (not_lt.mpr hsge)

/-- Witness for C3 at a concrete pair of far-apart conformers: position 1 is
accepted because its RMSD to the single earlier conformer is at least 0.2. -/
theorem accept_loop_skip_char_witness :
    (1 : ℕ) ∈ ([0, 1] : List ℕ) ↔ 1 < exPair.length ∧ ∀ j, j < 1 →
      ∃ r, rmsd (exPair.getD 1 dConf) (exPair.getD j dConf) = some r ∧ (0.2 : ℝ) ≤ r :=
  accept_loop_skip_char exPair [0, 1] exPair_accepted 1

/-- Counterexample to C3 as stated: in `exChain`, the conformer at position 2
is at RMSD 0.3 ≥ 0.2 from the only previously *accepted* conformer (position
0), so the claim says it must be accepted — but the loop compares against the
skipped position 1 as well and discards it: the accepted list is just `[0]`. -/
theorem accept_loop_counterexample :
    acceptedIndices exChain = some [0] ∧ (2 : ℕ) ∉ ([0] : List ℕ) ∧
    rmsd (mkConf1 (3 / 10)) (mkConf1 0) = some (3 / 10 : ℝ) ∧
    ¬ ((3 / 10 : ℝ) < (0.2 : ℝ)) := by
  refine ⟨exChain_accepted, by decide, ?_, by norm_num⟩
  · rw [rmsd_eq_map,
      show rmsdSq (mkConf1 (3 / 10)) (mkConf1 0) = some (9 / 100 : ℚ) from by
        rw [rmsdSq_mkConf1]; norm_num]
    simp only [Option.map_some', Option.some.injEq]
    rw [show ((9 / 100 : ℚ) : ℝ) = (3 / 10 : ℝ) ^ 2 by norm_num]
    exact Real.sqrt_sq (by norm_num)

/-- Claim C4: any two distinct conformers retained by the accept loop are at
pairwise RMSD at least 0.2 (the metric as the loop evaluates it: later
conformer against earlier one). -/
theorem retained_pairwise_rmsd (cs : List Conf) (l : List ℕ)
    (h : acceptedIndices cs = some l) (i j : ℕ)
    (hi : i ∈ l) (hj : j ∈ l) (hij : i < j) :
    ∃ r, rmsd (cs.getD j dConf) (cs.getD i dConf) = some r ∧ (0.2 : ℝ) ≤ r := by
  rcases (acceptedIndices_mem cs l h j).mp hj with ⟨hjlen, hscan⟩
  rcases (acceptedIndices_mem cs l h i).mp hi with ⟨hilen, _⟩
  have hall := (skipScan_false_iff _ _).mp hscan
  have hit : i < (cs.take j).length := by
    rw [List.length_take]
    exact lt_min hij hilen
  have hmem := getD_mem (cs.take j) i hit
  rw [getD_take_eq cs j i hij] at hmem
  exact hall _ hmem

/-- Witness for C4 at the concrete accepted pair. -/
theorem retained_pairwise_rmsd_witness :
    ∃ r, rmsd (exPair.getD 1 dConf) (exPair.getD 0 dConf) = some r ∧ (0.2 : ℝ) ≤ r :=
  retained_pairwise_rmsd exPair [0, 1] exPair_accepted 0 1
    (by decide) (by decide) (by decide)

/-- Claim C5 (amended): the accepted indices are strictly increasing, so the
labels of the survivors increase in acceptance order; when the run returned a
single conformer its survivor keeps the empty altloc; but when the run
returned more than one conformer, *every* survivor — even a lone one — gets
the uppercase letter at its position in the returned list, so labels may skip
letters and a single survivor does not keep the empty label (see the
counterexample for the claim as stated). -/
theorem altloc_assignment (cs : List Conf) (l : List ℕ)
    (h : acceptedIndices cs = some l) :
    List.Pairwise (fun a b => a < b) l ∧
    (cs.length = 1 → ∀ n ∈ l, altlocOf cs n = some "") ∧
    (1 < cs.length → ∀ n ∈ l, n < 26 →
      altlocOf cs n = some (String.mk [asciiUppercase.getD n 'A'])) := by
  refine ⟨(acceptFromIdx_sorted cs cs 0 l h).2, ?_, ?_⟩
  · intro hlen n _
    unfold altlocOf
    rw [if_neg (by omega)]
  · intro hlen n _ hn26
    unfold altlocOf
    rw [if_pos hlen]
    have hlt : n < asciiUppercase.length := by
      rw [show asciiUppercase.length = 26 from rfl]
      exact hn26
    rw [List.get?_eq_getElem?, List.getElem?_eq_getElem hlt, Option.map_some',
      Option.some.injEq, List.getD_eq_getElem?_getD, List.getElem?_eq_getElem hlt]
    rfl

/-- Witness for C5: with two returned and two surviving conformers, the
survivor at position 1 is labelled `"B"`. -/
theorem altloc_assignment_witness : altlocOf exPair 1 = some "B" := by
  have h := (altloc_assignment exPair [0, 1]
    exPair_accepted).2.2 (by decide) 1 (by decide) (by decide)
  rw [h]
  decide

/-- Counterexample to C5 as stated: three coincident conformers are returned,
only position 0 survives, yet the lone survivor is labelled `"A"` instead of
keeping the empty altloc, because the `nconformers > 1` test counts returned
conformers, not survivors. -/
theorem altloc_counterexample :
    acceptedIndices exDup = some [0] ∧ altlocOf exDup 0 = some "A" ∧
    (some "A" : Option String) ≠ some "" := by
  exact ⟨exDup_accepted, by decide, by decide⟩

/-- Claim C1: for conformer pairs of equal coordinate shape whose first
argument carries a PHE or TYR residue name, `rmsd` returns the minimum of the
plain RMSD and the RMSD against the ring-flipped coordinates of the second
conformer (CD1 with CD2, CE1 with CE2 swapped); when any of the four ring-atom
names is absent from the second conformer, the call raises (returns `none`)
instead of guessing. -/
theorem rmsd_aromatic_char (a b : Conf)
    (hshape : a.coor.length = b.coor.length)
    (harom : a.resn.contains "TYR" = true ∨ a.resn.contains "PHE" = true) :
    (∀ coor3, ringFlip b.name b.coor = some coor3 →
      rmsd a b = some (min (Real.sqrt ((rmsdValSq a.coor b.coor : ℚ) : ℝ))
                          (Real.sqrt ((rmsdValSq a.coor coor3 : ℚ) : ℝ)))) ∧
    ((b.name.contains "CD1" = false ∨ b.name.contains "CD2" = false ∨
      b.name.contains "CE1" = false ∨ b.name.contains "CE2" = false) →
      rmsd a b = none) := by
  constructor
  · intro coor3 hflip
    unfold rmsd
    rw [if_pos hshape]
    rcases harom with h | h
    · rw [if_pos h, hflip]
    · by_cases h2 : a.resn.contains "TYR"
      · rw [if_pos h2, hflip]
      · rw [if_neg h2, if_pos h, hflip]
  · intro hmiss
    have hnone := ringFlip_none_of_missing b.name b.coor hmiss
    unfold rmsd
    rw [if_pos hshape]
    rcases harom with h | h
    · rw [if_pos h, hnone]
    · by_cases h2 : a.resn.contains "TYR"
      · rw [if_pos h2, hnone]
      · rw [if_neg h2, if_pos h, hnone]

/-- Witness for C1 at concrete tyrosine conformers: the aromatic branch with
all ring atoms present, and the error on a partner missing them. -/
theorem rmsd_aromatic_char_witness :
    rmsd tyrA tyrB =
      some (min (Real.sqrt ((rmsdValSq tyrA.coor tyrB.coor : ℚ) : ℝ))
                (Real.sqrt ((rmsdValSq tyrA.coor tyrBFlip : ℚ) : ℝ))) ∧
    rmsd tyrA tyrBad = none :=
  ⟨(rmsd_aromatic_char tyrA tyrB (by decide) (Or.inl (by decide))).1 tyrBFlip (by decide),
   (rmsd_aromatic_char tyrA tyrBad (by decide) (Or.inl (by decide))).2 (Or.inl (by decide))⟩

/-- Claim C2 (amended): every value `rmsd` returns is nonnegative; every value
`rmsd(A, A)` returns is `0`; and `rmsd(A, A)` does return `0` for every
conformer that is non-aromatic or whose own ring flip succeeds.  (As stated
the claim also demanded `rmsd(A, A) = 0` for aromatic conformers missing
their ring atoms, where the call raises instead — see the counterexample.) -/
theorem rmsd_metric_props :
    (∀ a b : Conf, ∀ r : ℝ, rmsd a b = some r → 0 ≤ r) ∧
    (∀ a : Conf, ∀ r : ℝ, rmsd a a = some r → r = 0) ∧
    (∀ a : Conf,
      ((a.resn.contains "TYR" = false ∧ a.resn.contains "PHE" = false) ∨
        (ringFlip a.name a.coor).isSome = true) →
      rmsd a a = some 0) := by
  refine ⟨?_, ?_, ?_⟩
  · intro a b r h
    rw [rmsd_eq_map] at h
    cases hq : rmsdSq a b with
    | none => rw [hq] at h; exact Option.noConfusion h
    | some q =>
      rw [hq] at h
      simp only [Option.map_some', Option.some.injEq] at h
      rw [← h]
      exact Real.sqrt_nonneg _
  · intro a r h
    rw [rmsd_eq_map] at h
    cases hq : rmsdSq a a with
    | none => rw [hq] at h; exact Option.noConfusion h
    | some q =>
      rw [hq] at h
      simp only [Option.map_some', Option.some.injEq] at h
      rw [← h, rmsdSq_self_eq_zero a q hq]
      simp [Real.sqrt_zero]
  · intro a hwf
    rw [rmsd_eq_map, rmsdSq_self_some a hwf]
    simp [Real.sqrt_zero]

/-- Witness for C2: a concrete self-comparison returning `0`. -/
theorem rmsd_metric_props_witness : rmsd (mkConf1 0) (mkConf1 0) = some 0 :=
  rmsd_metric_props.2.2 (mkConf1 0) (Or.inl (by decide))

/-- Counterexample to C2 as stated: a tyrosine-labelled conformer without the
CD1/CD2/CE1/CE2 atoms; `rmsd(A, A)` raises (`none`), it does not return `0`. -/
theorem rmsd_self_error_counterexample :
    rmsd badTyr badTyr = none ∧ rmsd badTyr badTyr ≠ some 0 := by
  have h : rmsd badTyr badTyr = none := by
    rw [rmsd_eq_map, show rmsdSq badTyr badTyr = none from by decide]
    rfl
  exact ⟨h, by rw [h]; exact fun hx => Option.noConfusion hx⟩

/-- Claim C6: `rmsd` on coordinate arrays of different shapes raises (returns
`none`) before computing any metric. -/
theorem rmsd_shape_mismatch (a b : Conf) (h : a.coor.length ≠ b.coor.length) :
    rmsd a b = none := by
  unfold rmsd
  rw [if_neg h]

/-- Witness for C6 at a one-atom versus a two-atom conformer. -/
theorem rmsd_shape_mismatch_witness : rmsd (mkConf1 0) twoAtoms = none :=
  rmsd_shape_mismatch (mkConf1 0) twoAtoms (by decide)

/-- Claim C9: on non-PHE/TYR conformers of equal shape, the implemented
`sqrt(3 * inner(diff, diff) / diff.size)` is exactly the textbook RMSD
`sqrt((1/N) * Σ‖aᵢ - bᵢ‖²)`. -/
theorem rmsd_plain_formula (a b : Conf)
    (hT : a.resn.contains "TYR" = false) (hP : a.resn.contains "PHE" = false)
    (hshape : a.coor.length = b.coor.length) :
    rmsd a b =
      some (Real.sqrt
        ((((List.zip a.coor b.coor).map (fun p => sqDist p.1 p.2)).sum
            / (a.coor.length : ℚ) : ℚ) : ℝ)) := by
  unfold rmsd
  rw [if_pos hshape,
    if_neg (fun hx => by rw [hT] at hx; exact Bool.noConfusion hx),
    if_neg (fun hx => by rw [hP] at hx; exact Bool.noConfusion hx),
    rmsdValSq_eq_div, innerDiff_eq_sum]

/-- Witness for C9 at two concrete one-atom conformers. -/
theorem rmsd_plain_formula_witness :
    rmsd (mkConf1 0) (mkConf1 (3 / 10)) =
      some (Real.sqrt
        ((((List.zip (mkConf1 0).coor (mkConf1 (3 / 10)).coor).map
            (fun p => sqDist p.1 p.2)).sum
            / ((mkConf1 0).coor.length : ℚ) : ℚ) : ℝ)) :=
  rmsd_plain_formula (mkConf1 0) (mkConf1 (3 / 10)) (by decide) (by decide) (by decide)

lemma get_property_eq_map (pt : ElemData → ℚ) (es : List String) :
    _get_property pt es = es.map (elemValue pt) := by
  show es.map (fun e => ((es.dedup).map (elemValue pt)).getD ((es.dedup).indexOf e) 0)
      = es.map (elemValue pt)
  apply List.map_congr_left
  intro e he
  have hmem : e ∈ es.dedup := List.mem_dedup.mpr he
  have hidx : es.dedup.indexOf e < es.dedup.length := List.indexOf_lt_length.mpr hmem
  have hlen : es.dedup.indexOf e < (es.dedup.map (elemValue pt)).length := by
    rw [List.length_map]
    exact hidx
  rw [List.getD_eq_getElem?_getD, List.getElem?_eq_getElem hlen, Option.getD_some,
    List.getElem_map, List.getElem_indexOf hidx]

/-- Claim C7: the element-property lookups never fail — each atom whose
(capitalized) element symbol is in the `ELEMENTS` table gets its own
parameter, and each atom with an unknown symbol gets Carbon's parameter
instead (with a warning logged); one value per atom, in atom order. -/
theorem element_radius_fallback (es : List String) :
    covalent_radius es = es.map (fun e =>
      match lookupElem (capitalize e) with
      | some d => d.covrad
      | none => carbonElem.covrad) ∧
    vdw_radius es = es.map (fun e =>
      match lookupElem (capitalize e) with
      | some d => d.vdwrad
      | none => carbonElem.vdwrad) ∧
    (covalent_radius es).length = es.length ∧
    (vdw_radius es).length = es.length := by
  have h1 : covalent_radius es = es.map (elemValue ElemData.covrad) :=
    get_property_eq_map ElemData.covrad es
  have h2 : vdw_radius es = es.map (elemValue ElemData.vdwrad) :=
    get_property_eq_map ElemData.vdwrad es
  refine ⟨h1, h2, ?_, ?_⟩
  · rw [h1, List.length_map]
  · rw [h2, List.length_map]

lemma getD_map_eq {α : Type} (f : α → Bool) (l : List α) (i : ℕ) (h : i < l.length) :
    (l.map f).getD i false = f (l.get ⟨i, h⟩) := by
  rw [List.getD_eq_getElem?_getD,
    List.getElem?_eq_getElem (by rw [List.length_map]; exact h),
    Option.getD_some, List.getElem_map]
  rfl

lemma mask_eq_map_maskEntry {α : Type} [LinearOrder α] (data values : List α)
    (op : CompOp) :
    (if op = CompOp.ne
      then (data.map (fun d => values.any (fun v => compFn op d v))).map (fun b => not b)
      else data.map (fun d => values.any (fun v => compFn op d v)))
      = data.map (maskEntry op values) := by
  by_cases hop : op = CompOp.ne
  · rw [if_pos hop, List.map_map]
    apply List.map_congr_left
    intro d _
    simp [maskEntry, hop]
  · rw [if_neg hop]
    apply List.map_congr_left
    intro d _
    simp [maskEntry, hop]

lemma simple_select_none_eq {α : Type} [LinearOrder α] (data values : List α)
    (op : CompOp) :
    _simple_select data none values op =
      (List.range data.length).filter (fun i =>
        (data.map (maskEntry op values)).getD i false) := by
  simp only [_simple_select]
  rw [mask_eq_map_maskEntry, List.length_map]

lemma simple_select_some_eq {α : Type} [LinearOrder α] (data values : List α)
    (sel : List ℕ) (op : CompOp) :
    _simple_select data (some sel) values op =
      (List.zip sel (data.map (maskEntry op values))).filterMap
        (fun p => if p.2 then some p.1 else none) := by
  simp only [_simple_select]
  rw [mask_eq_map_maskEntry]

lemma maskEntry_iff {α : Type} [LinearOrder α] (op : CompOp) (values : List α)
    (d : α) :
    maskEntry op values d = true ↔ opPred op d values := by
  cases op <;>
    simp [maskEntry, compFn, opPred, List.any_eq_true, Bool.not_eq_true',
      List.any_eq_false, decide_eq_true_eq]

lemma get_map_eq {α : Type} (f : α → Bool) (l : List α) (k : ℕ)
    (hm : k < (l.map f).length) (h : k < l.length) :
    (l.map f).get ⟨k, hm⟩ = f (l.get ⟨k, h⟩) := by
  simp [List.get_eq_getElem, List.getElem_map]

lemma get_eq_getD_nat (sel : List ℕ) (k : ℕ) (hk : k < sel.length) :
    sel.get ⟨k, hk⟩ = sel.getD k 0 := by
  rw [List.getD_eq_getElem?_getD, List.getElem?_eq_getElem hk]
  rfl

lemma mem_filterMap_zip (sel : List ℕ) (mask : List Bool) (i : ℕ) :
    i ∈ (List.zip sel mask).filterMap (fun p => if p.2 then some p.1 else none) ↔
      ∃ k, ∃ hk : k < sel.length, ∃ hm : k < mask.length,
        sel.get ⟨k, hk⟩ = i ∧ mask.get ⟨k, hm⟩ = true := by
  rw [List.mem_filterMap]
  constructor
  · rintro ⟨⟨a, b⟩, hmem, hf⟩
    cases b with
    | false => simp at hf
    | true =>
      simp only [if_true] at hf
      rcases List.mem_iff_getElem.mp hmem with ⟨k, hklen, hkeq⟩
      have hk : k < sel.length := lt_of_lt_of_le hklen
        (by rw [List.length_zip]; exact min_le_left _ _)
      have hm : k < mask.length := lt_of_lt_of_le hklen
        (by rw [List.length_zip]; exact min_le_right _ _)
      rw [List.getElem_zip, Prod.mk.injEq] at hkeq
      refine ⟨k, hk, hm, ?_, ?_⟩
      · rw [List.get_eq_getElem, hkeq.1]
        exact Option.some.inj hf
      · rw [List.get_eq_getElem, hkeq.2]
  · rintro ⟨k, hk, hm, heq, hmask⟩
    refine ⟨(sel.get ⟨k, hk⟩, mask.get ⟨k, hm⟩), ?_, ?_⟩
    · apply List.mem_iff_getElem.mpr
      refine ⟨k, by rw [List.length_zip]; exact lt_min hk hm, ?_⟩
      rw [List.getElem_zip]
      rfl
    · rw [hmask]
      simp only [if_true]
      rw [heq]

/-- Claim C8: `_simple_select` has multi-value set-membership semantics on
root structures and on views alike.  On a root structure (`self._selection is
None`) the returned indices are exactly the positions whose attribute
satisfies the operator against some listed value (`==` equality with some
value, `!=` the complement — equality masks OR-ed, then negated — and the
orders the corresponding comparison).  On a view carrying a selection of
parent indices (one per atom, `self._selection[mask]`), the returned parent
indices are exactly those of the view's atoms whose attribute satisfies the
same predicate. -/
theorem simple_select_semantics {α : Type} [LinearOrder α]
    (data values : List α) (op : CompOp) (i : ℕ) :
    (i ∈ _simple_select data none values op ↔
      ∃ h : i < data.length, opPred op (data.get ⟨i, h⟩) values) ∧
    (∀ sel : List ℕ, sel.length = data.length →
      (i ∈ _simple_select data (some sel) values op ↔
        ∃ k, ∃ h : k < data.length, sel.getD k 0 = i ∧
          opPred op (data.get ⟨k, h⟩) values)) := by
  constructor
  · rw [simple_select_none_eq, List.mem_filter, List.mem_range]
    constructor
    · rintro ⟨h1, h2⟩
      refine ⟨h1, ?_⟩
      rw [getD_map_eq _ data i h1] at h2
      exact (maskEntry_iff op values _).mp h2
    · rintro ⟨h1, h2⟩
      refine ⟨h1, ?_⟩
      rw [getD_map_eq _ data i h1]
      exact (maskEntry_iff op values _).mpr h2
  · intro sel hsel
    rw [simple_select_some_eq, mem_filterMap_zip]
    constructor
    · rintro ⟨k, hk, hm, hski, hmask⟩
      have hkd : k < data.length := by rw [← hsel]; exact hk
      refine ⟨k, hkd, ?_, ?_⟩
      · rw [← get_eq_getD_nat sel k hk]
        exact hski
      · rw [get_map_eq _ data k hm hkd] at hmask
        exact (maskEntry_iff op values _).mp hmask
    · rintro ⟨k, hkd, hski, hpred⟩
      have hk : k < sel.length := by rw [hsel]; exact hkd
      have hm : k < (data.map (maskEntry op values)).length := by
        rw [List.length_map]
        exact hkd
      refine ⟨k, hk, hm, ?_, ?_⟩
      · rw [get_eq_getD_nat sel k hk]
        exact hski
      · rw [get_map_eq _ data k hm hkd]
        exact (maskEntry_iff op values _).mpr hpred

/-- Witness for C8 at a concrete view: atoms with parent indices 10, 20, 30
and attribute values 5, 7, 5; selecting `== [5]` through the view keeps the
parent indices whose attribute is 5. -/
theorem simple_select_semantics_witness :
    (30 : ℕ) ∈ _simple_select [(5 : ℚ), 7, 5] (some [10, 20, 30]) [5] CompOp.eq ↔
      ∃ k, ∃ h : k < [(5 : ℚ), 7, 5].length, [10, 20, 30].getD k 0 = 30 ∧
        opPred CompOp.eq ([(5 : ℚ), 7, 5].get ⟨k, h⟩) [5] :=
  (simple_select_semantics [(5 : ℚ), 7, 5] [5] CompOp.eq 30).2 [10, 20, 30] (by decide)

lemma getD_set_self (st : Store) (k : ℕ) (arr : List ℚ) (hk : k < st.length) :
    (st.set k arr).getD k [] = arr := by
  rw [List.getD_eq_getElem?_getD,
    List.getElem?_eq_getElem (by rw [List.length_set]; exact hk),
    Option.getD_some]
  exact List.getElem_set_self _

lemma getD_set_ne (st : Store) (k j : ℕ) (arr : List ℚ) (hne : k ≠ j) :
    (st.set k arr).getD j [] = st.getD j [] := by
  rw [List.getD_eq_getElem?_getD, List.getD_eq_getElem?_getD, List.getElem?_set_ne hne]

lemma getD_append_left (st : Store) (x : List ℚ) (j : ℕ) (hj : j < st.length) :
    (st ++ [x]).getD j [] = st.getD j [] := by
  rw [List.getD_eq_getElem?_getD, List.getD_eq_getElem?_getD,
    List.getElem?_append_left hj]

lemma getD_map_range (f : ℕ → ℚ) (n i : ℕ) (h : i < n) :
    ((List.range n).map f).getD i 0 = f i := by
  rw [List.getD_eq_getElem?_getD,
    List.getElem?_eq_getElem (by rw [List.length_map, List.length_range]; exact h),
    Option.getD_some, List.getElem_map, List.getElem_range]

/-- Claim C10: `extract` returns a view over the same backing store reference
(no data copied), so writing an attribute through the view mutates exactly the
selected positions of the parent's array while leaving the rest unchanged;
`copy` materializes into a fresh reference, so writing through the copy leaves
the original structure's attribute values untouched. -/
theorem extract_view_copy_semantics (st : Store) (s : SView) (sel : List ℕ) (v : ℚ)
    (href : s.dataRef < st.length) (hroot : s.selection = none) :
    (extract s sel).dataRef = s.dataRef ∧
    (∀ i ∈ sel, i < (st.getD s.dataRef []).length →
      (getAttr (setAttr st (extract s sel) v) s).getD i 0 = v) ∧
    (∀ i, i < (st.getD s.dataRef []).length → i ∉ sel →
      (getAttr (setAttr st (extract s sel) v) s).getD i 0 =
        (st.getD s.dataRef []).getD i 0) ∧
    getAttr (setAttr (copyStruct st s).1 (copyStruct st s).2 v) s = getAttr st s := by
  have hget : ∀ st2 : Store, getAttr st2 s = st2.getD s.dataRef [] := by
    intro st2
    unfold getAttr
    rw [hroot]
  have hset : setAttr st (extract s sel) v =
      st.set s.dataRef ((List.range (st.getD s.dataRef []).length).map
        (fun i => if sel.contains i then v else (st.getD s.dataRef []).getD i 0)) := by
    unfold setAttr extract
    rfl
  refine ⟨rfl, ?_, ?_, ?_⟩
  · intro i hi hilen
    rw [hget, hset, getD_set_self st s.dataRef _ href, getD_map_range _ _ i hilen]
    have hc : sel.contains i = true := by
      simpa [List.contains] using hi
    rw [if_pos hc]
  · intro i hilen hni
    rw [hget, hset, getD_set_self st s.dataRef _ href, getD_map_range _ _ i hilen]
    have hc : sel.contains i = false := by
      simpa [List.contains] using hni
    rw [hc]
    rfl
  · show getAttr (setAttr (st ++ [getAttr st s]) ⟨st.length, none⟩ v) s = getAttr st s
    have hset2 : setAttr (st ++ [getAttr st s]) ⟨st.length, none⟩ v =
        (st ++ [getAttr st s]).set st.length
          (((st ++ [getAttr st s]).getD st.length []).map (fun _ => v)) := by
      unfold setAttr
      rfl
    rw [hset2, hget, hget]
    exact (getD_set_ne _ st.length s.dataRef _ (by omega)).trans
      (getD_append_left st _ s.dataRef href)

/-- Witness for C10: in the store `[[1, 2, 3]]`, writing `5` through the view
`extract` over selection `[1]` changes position 1 of the parent's array. -/
theorem extract_view_copy_semantics_witness :
    (getAttr (setAttr [[1, 2, 3]] (extract ⟨0, none⟩ [1]) 5) ⟨0, none⟩).getD 1 0 = 5 :=
  (extract_view_copy_semantics [[1, 2, 3]] ⟨0, none⟩ [1] 5 (by decide) rfl).2.1 1
    (by decide) (by decide)

end QFit
